import Mathlib

/-!
Verification of the edge-side durable delivery pipeline:
the SQLite-backed offline queue (`rpi/src/offline_queue.py`) and the
publish loop (`rpi/src/publisher.py`) of sleep-quality-advisor.

The queue table `queue(id INTEGER PRIMARY KEY AUTOINCREMENT, deviceId TEXT,
ts_min INTEGER, payload_json TEXT, created_at INTEGER)` is modelled as a list
of rows plus the autoincrement counter.  The unique index on
`(deviceId, ts_min)` is what `INSERT OR IGNORE` consults; the read order is
always `ORDER BY ts_min ASC, id ASC`.  Payloads are kept abstract (type `P`):
`payload_json` round-trips through `json.dumps`/`json.loads` unchanged.
-/

namespace SleepQ

/-- One row of the `queue` table. -/
structure QEntry (P : Type) where
  id : Nat
  deviceId : String
  ts_min : Int
  payload : P
deriving Repr, DecidableEq

/-- The persistent state of an `OfflineQueue`: the autoincrement counter,
the configured row cap (`self.max_rows`) and the table contents. -/
structure QueueState (P : Type) where
  nextId : Nat
  maxRows : Int
  rows : List (QEntry P)
deriving Repr, DecidableEq

variable {P : Type}

/-- Strict `(ts_min, id)` order used by `ORDER BY ts_min ASC, id ASC`. -/
def keyLt (a b : QEntry P) : Prop :=
  a.ts_min < b.ts_min ∨ (a.ts_min = b.ts_min ∧ a.id < b.id)

/-- Reflexive `(ts_min, id)` order. -/
def keyLe (a b : QEntry P) : Prop :=
  a.ts_min < b.ts_min ∨ (a.ts_min = b.ts_min ∧ a.id ≤ b.id)

instance : DecidableRel (keyLt (P := P)) := fun a b =>
  inferInstanceAs (Decidable (a.ts_min < b.ts_min ∨ (a.ts_min = b.ts_min ∧ a.id < b.id)))

instance : DecidableRel (keyLe (P := P)) := fun a b =>
  inferInstanceAs (Decidable (a.ts_min < b.ts_min ∨ (a.ts_min = b.ts_min ∧ a.id ≤ b.id)))

instance : IsTotal (QEntry P) keyLe where
  total a b := by
    unfold keyLe
    rcases lt_trichotomy a.ts_min b.ts_min with h | h | h
    · exact Or.inl (Or.inl h)
    · rcases Nat.le_total a.id b.id with h' | h'
      · exact Or.inl (Or.inr ⟨h, h'⟩)
      · exact Or.inr (Or.inr ⟨h.symm, h'⟩)
    · exact Or.inr (Or.inl h)

instance : IsTrans (QEntry P) keyLe where
  trans a b c hab hbc := by
    unfold keyLe at *
    rcases hab with h | ⟨he, hi⟩ <;> rcases hbc with h' | ⟨he', hi'⟩
    · exact Or.inl (h.trans h')
    · exact Or.inl (he' ▸ h)
    · exact Or.inl (he ▸ h')
    · exact Or.inr ⟨he.trans he', hi.trans hi'⟩

instance : IsTrans (QEntry P) keyLt where
  trans a b c hab hbc := by
    unfold keyLt at *
    rcases hab with h | ⟨he, hi⟩ <;> rcases hbc with h' | ⟨he', hi'⟩
    · exact Or.inl (h.trans h')
    · exact Or.inl (he' ▸ h)
    · exact Or.inl (he ▸ h')
    · exact Or.inr ⟨he.trans he', hi.trans hi'⟩

instance : IsAntisymm (QEntry P) keyLt where
  antisymm a b hab hba := by
    unfold keyLt at *
    rcases hab with h | ⟨he, hi⟩ <;> rcases hba with h' | ⟨he', hi'⟩
    · exact absurd (h.trans h') (lt_irrefl _)
    · exact absurd h (he' ▸ lt_irrefl _)
    · exact absurd h' (he ▸ lt_irrefl _)
    · exact absurd (hi.trans hi') (lt_irrefl _)

theorem keyLt_of_keyLe_of_ne_id {a b : QEntry P} (h : keyLe a b) (hne : a.id ≠ b.id) :
    keyLt a b := by
  rcases h with h | ⟨he, hi⟩
  · exact Or.inl h
  · exact Or.inr ⟨he, lt_of_le_of_ne hi hne⟩

theorem keyLe_of_keyLt {a b : QEntry P} (h : keyLt a b) : keyLe a b := by
  rcases h with h | ⟨he, hi⟩
  · exact Or.inl h
  · exact Or.inr ⟨he, Nat.le_of_lt hi⟩

/-- The view `SELECT ... ORDER BY ts_min ASC, id ASC` of a list of rows. -/
def sortL (l : List (QEntry P)) : List (QEntry P) :=
  List.insertionSort keyLe l

/-- Sorted view of the whole table. -/
def sortedRows (q : QueueState P) : List (QEntry P) :=
  sortL q.rows

/-- `SELECT COUNT(1) FROM queue`. -/
def count (q : QueueState P) : Nat :=
  q.rows.length

/-- Does a row with key `(deviceId, ts_min)` exist (the unique index that
`INSERT OR IGNORE` consults)? -/
def keyPresent (d : String) (t : Int) (rows : List (QEntry P)) : Bool :=
  rows.any (fun e => e.deviceId = d ∧ e.ts_min = t)

/-- `INSERT OR IGNORE INTO queue(deviceId, ts_min, payload_json, created_at)`:
insert-if-absent on the `(deviceId, ts_min)` unique index, consuming one
autoincrement id on actual insertion. -/
def insertIgnore (d : String) (t : Int) (p : P) (q : QueueState P) : QueueState P :=
  if keyPresent d t q.rows then q
  else { q with nextId := q.nextId + 1, rows := q.rows ++ [⟨q.nextId, d, t, p⟩] }

/-- Rows kept by `DELETE FROM queue WHERE id IN ids`. -/
def removeIds (ids : List Nat) (rows : List (QEntry P)) : List (QEntry P) :=
  rows.filter (fun e => decide (e.id ∉ ids))

/-- `OfflineQueue.delete(ids)`: delete rows by id, returning the rowcount. -/
def delete (ids : List Nat) (q : QueueState P) : Nat × QueueState P :=
  let kept := removeIds ids q.rows
  (q.rows.length - kept.length, { q with rows := kept })

/-- `OfflineQueue.prune_to_row_cap(max_rows)`: clamp the cap at 0, then delete
the `total - max_rows` oldest rows by `(ts_min, id)` if over cap. -/
def prune_to_row_cap (maxRows : Int) (q : QueueState P) : QueueState P :=
  if count q ≤ (max 0 maxRows).toNat then q
  else
    { q with
      rows := removeIds
        (((sortedRows q).take (count q - (max 0 maxRows).toNat)).map QEntry.id) q.rows }

/-- `OfflineQueue.enqueue(payload)` after the required keys have been read:
insert-if-absent, then enforce the row cap with `self.max_rows`. -/
def enqueue (d : String) (t : Int) (p : P) (q : QueueState P) : QueueState P :=
  prune_to_row_cap q.maxRows (insertIgnore d t p q)

/-- `OfflineQueue.dequeue_batch(limit)`: `SELECT id, payload_json ... ORDER BY
ts_min ASC, id ASC LIMIT ?`, returning `(id, payload)` pairs.  The SELECT does
not modify the table, so the state is returned unchanged. -/
def dequeue_batch (limit : Nat) (q : QueueState P) : List (Nat × P) × QueueState P :=
  (((sortedRows q).take limit).map (fun e => (e.id, e.payload)), q)

/-- The entries underlying the batch returned by `dequeue_batch`. -/
def dequeueEntries (limit : Nat) (q : QueueState P) : List (QEntry P) :=
  (sortedRows q).take limit

/-- Did `send_func` succeed?  `none` models a raised exception, `some code`
a returned status; success is `200 <= code < 300`. -/
def sendOk (r : Option Int) : Bool :=
  match r with
  | some code => decide (200 ≤ code ∧ code < 300)
  | none => false

/-- The `for rid, payload in batch` loop of `OfflineQueue.flush_once`:
on success delete the row and continue, on the first exception or
non-2xx status stop and return the count flushed so far. -/
def flushLoop (send : P → Option Int) :
    List (Nat × P) → Nat → QueueState P → Nat × QueueState P
  | [], flushed, q => (flushed, q)
  | (rid, p) :: rest, flushed, q =>
    match send p with
    | some code =>
      if 200 ≤ code ∧ code < 300 then
        flushLoop send rest (flushed + 1) (delete [rid] q).2
      else
        (flushed, q)
    | none => (flushed, q)

/-- `OfflineQueue.flush_once(max_batch, send_func)`. -/
def flush_once (maxBatch : Nat) (send : P → Option Int) (q : QueueState P) :
    Nat × QueueState P :=
  let batch := (dequeue_batch maxBatch q).1
  flushLoop send batch 0 q

/-- A freshly created queue (`CREATE TABLE IF NOT EXISTS` on an empty file). -/
def emptyQueue (maxRows : Int) : QueueState P :=
  { nextId := 0, maxRows := maxRows, rows := [] }

/-- The table has pairwise-distinct ids — the `id INTEGER PRIMARY KEY`
invariant; it holds in every reachable state. -/
def NodupIds (q : QueueState P) : Prop :=
  (q.rows.map QEntry.id).Nodup

instance (q : QueueState P) : Decidable (NodupIds q) :=
  inferInstanceAs (Decidable ((q.rows.map QEntry.id).Nodup))

/-! ### Basic facts about the sorted view -/

theorem sortL_perm (l : List (QEntry P)) : List.Perm (sortL l) l :=
  List.perm_insertionSort keyLe l

theorem sortL_sorted (l : List (QEntry P)) : List.Sorted keyLe (sortL l) :=
  List.sorted_insertionSort keyLe l

theorem mem_sortL {l : List (QEntry P)} {e : QEntry P} : e ∈ sortL l ↔ e ∈ l :=
  (sortL_perm l).mem_iff

theorem sortL_length (l : List (QEntry P)) : (sortL l).length = l.length :=
  (sortL_perm l).length_eq

theorem nodupIds_of_perm {l₁ l₂ : List (QEntry P)} (hp : List.Perm l₁ l₂)
    (h : (l₁.map QEntry.id).Nodup) : (l₂.map QEntry.id).Nodup :=
  (hp.map QEntry.id).nodup h

theorem sorted_keyLt_of_keyLe {l : List (QEntry P)}
    (hnd : (l.map QEntry.id).Nodup) (hs : List.Sorted keyLe l) :
    List.Sorted keyLt l := by
  have hne : l.Pairwise (fun a b => a.id ≠ b.id) := (List.pairwise_map).mp hnd
  exact (hs.and hne).imp (fun h => keyLt_of_keyLe_of_ne_id h.1 h.2)

theorem sortL_sorted_keyLt {l : List (QEntry P)} (hnd : (l.map QEntry.id).Nodup) :
    List.Sorted keyLt (sortL l) :=
  sorted_keyLt_of_keyLe (nodupIds_of_perm (sortL_perm l).symm hnd) (sortL_sorted l)

theorem sortL_eq_of_perm {l₁ l₂ : List (QEntry P)}
    (hnd : (l₁.map QEntry.id).Nodup) (hp : List.Perm l₁ l₂) : sortL l₁ = sortL l₂ := by
  have hnd₂ : (l₂.map QEntry.id).Nodup := nodupIds_of_perm hp hnd
  exact List.eq_of_perm_of_sorted
    (((sortL_perm l₁).trans hp).trans (sortL_perm l₂).symm)
    (sortL_sorted_keyLt hnd) (sortL_sorted_keyLt hnd₂)

theorem sortL_filter {l : List (QEntry P)} (hnd : (l.map QEntry.id).Nodup)
    (p : QEntry P → Bool) : sortL (l.filter p) = (sortL l).filter p := by
  have hndf : ((l.filter p).map QEntry.id).Nodup :=
    ((List.filter_sublist l).map QEntry.id).nodup hnd
  have hperm : List.Perm (sortL (l.filter p)) ((sortL l).filter p) :=
    (sortL_perm (l.filter p)).trans ((sortL_perm l).filter p).symm
  exact List.eq_of_perm_of_sorted hperm (sortL_sorted_keyLt hndf)
    ((sortL_sorted_keyLt hnd).filter p)

theorem sortL_append_single {l : List (QEntry P)} {e : QEntry P}
    (hnd : ((l ++ [e]).map QEntry.id).Nodup) :
    sortL (l ++ [e]) = (sortL l).orderedInsert keyLe e := by
  have hOI : List.Perm ((sortL l).orderedInsert keyLe e) (l ++ [e]) :=
    ((List.perm_orderedInsert keyLe e (sortL l)).trans ((sortL_perm l).cons e)).trans
      (List.perm_append_singleton e l).symm
  refine List.eq_of_perm_of_sorted ((sortL_perm _).trans hOI.symm)
    (sortL_sorted_keyLt hnd) ?_
  exact sorted_keyLt_of_keyLe (nodupIds_of_perm hOI.symm hnd)
    ((sortL_sorted l).orderedInsert e _)

/-- Deleting the ids of the first `k` elements of a list with distinct ids
keeps exactly the remainder. -/
theorem removeIds_take {l : List (QEntry P)} (hnd : (l.map QEntry.id).Nodup)
    (k : Nat) : removeIds ((l.take k).map QEntry.id) l = l.drop k := by
  set ids := (l.take k).map QEntry.id with hids
  have hsplit : l = l.take k ++ l.drop k := (List.take_append_drop k l).symm
  have hdisj : ∀ e ∈ l.drop k, e.id ∉ ids := by
    intro e he hmem
    have : (l.map QEntry.id).Nodup := hnd
    rw [hsplit, List.map_append, List.nodup_append] at this
    exact this.2.2 hmem (List.mem_map_of_mem QEntry.id he)
  have htake : ∀ e ∈ l.take k, e.id ∈ ids := fun e he =>
    hids ▸ List.mem_map_of_mem QEntry.id he
  unfold removeIds
  conv_lhs => rw [hsplit]
  rw [List.filter_append]
  have h1 : (l.take k).filter (fun e => decide (e.id ∉ ids)) = [] := by
    rw [List.filter_eq_nil_iff]
    intro e he
    simp only [decide_eq_true_eq, Decidable.not_not]
    exact htake e he
  have h2 : (l.drop k).filter (fun e => decide (e.id ∉ ids)) = l.drop k := by
    rw [List.filter_eq_self]
    intro e he
    simp only [decide_eq_true_eq]
    exact hdisj e he
  rw [h1, h2, List.nil_append]

/-! ### Behaviour of `enqueue` (claim C1) -/

theorem prune_noop {m : Int} {q : QueueState P} (h : count q ≤ (max 0 m).toNat) :
    prune_to_row_cap m q = q := by
  unfold prune_to_row_cap
  rw [if_pos h]

theorem enqueue_absent_small {q : QueueState P} {d : String} {t : Int} {p : P}
    (habs : keyPresent d t q.rows = false)
    (hcap : count q < (max 0 q.maxRows).toNat) :
    enqueue d t p q =
      { q with nextId := q.nextId + 1, rows := q.rows ++ [⟨q.nextId, d, t, p⟩] } := by
  unfold enqueue insertIgnore
  rw [habs]
  simp only [Bool.false_eq_true, if_false]
  have hcap' : q.rows.length < (max 0 q.maxRows).toNat := hcap
  refine prune_noop ?_
  simp only [count, List.length_append, List.length_cons, List.length_nil]
  omega

theorem enqueue_present {q : QueueState P} {d : String} {t : Int} {p : P}
    (hpres : keyPresent d t q.rows = true)
    (hcap : count q ≤ (max 0 q.maxRows).toNat) :
    enqueue d t p q = q := by
  unfold enqueue insertIgnore
  rw [hpres]
  simp only [if_true]
  exact prune_noop hcap

/-- Claim C1, amended: when the `(deviceId, ts_min)` key is not yet live and
the live count is strictly below the row cap, the first enqueue inserts the
payload and raises the live count by exactly one, the second enqueue with the
same key is a no-op (the state is unchanged), and the payload stored for the
key is the one from the first call. -/
theorem enqueue_dedupe_first_write_wins (q : QueueState P) (d : String) (t : Int)
    (p₁ p₂ : P) (habs : keyPresent d t q.rows = false)
    (hcap : count q < (max 0 q.maxRows).toNat) :
    enqueue d t p₂ (enqueue d t p₁ q) = enqueue d t p₁ q ∧
    count (enqueue d t p₁ q) = count q + 1 ∧
    (enqueue d t p₁ q).rows.filter
      (fun e => decide (e.deviceId = d ∧ e.ts_min = t)) = [⟨q.nextId, d, t, p₁⟩] := by
  have hq1 := @enqueue_absent_small P q d t p₁ habs hcap
  refine ⟨?_, ?_, ?_⟩
  · rw [hq1]
    refine enqueue_present ?_ ?_
    · unfold keyPresent
      rw [List.any_append]
      simp
    · have hcap' : q.rows.length < (max 0 q.maxRows).toNat := hcap
      simp only [count, List.length_append, List.length_cons, List.length_nil]
      omega
  · rw [hq1]
    simp [count]
  · rw [hq1]
    have h1 : q.rows.filter (fun e => decide (e.deviceId = d ∧ e.ts_min = t)) = [] := by
      rw [List.filter_eq_nil_iff]
      intro e he hdec
      have : keyPresent d t q.rows = true := by
        unfold keyPresent
        rw [List.any_eq_true]
        exact ⟨e, he, hdec⟩
      rw [habs] at this
      exact Bool.false_ne_true this
    simp only [List.filter_append, h1, List.nil_append]
    simp

/-- Claim C1 as stated is false: if the key is already live, a further pair of
enqueue calls with that key leaves the live count unchanged instead of
increasing it by one. -/
theorem enqueue_dedupe_counterexample :
    count (enqueue "dev1" 100 () (enqueue "dev1" 100 ()
        (enqueue "dev1" 100 () (emptyQueue (P := Unit) 10)))) =
      count (enqueue "dev1" 100 () (emptyQueue (P := Unit) 10)) ∧
    count (enqueue "dev1" 100 () (emptyQueue (P := Unit) 10)) = 1 := by
  decide

/-! ### Behaviour of `dequeue_batch` (claim C3) -/

theorem nodupIds_sortedRows {q : QueueState P} (h : NodupIds q) :
    ((sortedRows q).map QEntry.id).Nodup :=
  nodupIds_of_perm (sortL_perm q.rows).symm h

theorem dequeueEntries_length (mb : Nat) (q : QueueState P) :
    (dequeueEntries mb q).length = min mb (count q) := by
  simp [dequeueEntries, sortedRows, List.length_take, sortL_length, count]

theorem mem_dequeueEntries {mb : Nat} {q : QueueState P} {e : QEntry P}
    (h : e ∈ dequeueEntries mb q) : e ∈ q.rows :=
  mem_sortL.mp (List.mem_of_mem_take h)

/-- Claim C3: `dequeue_batch k` does not change the state, returns the
`(id, payload)` projections of the entries `dequeueEntries k`, and those
entries are sorted strictly by `(ts_min, id)`, number `min k count`, are all
live, and precede every live entry left out of the batch — i.e. they are the
`k` oldest live entries (all of them when fewer than `k` are live). -/
theorem dequeue_batch_spec (k : Nat) (q : QueueState P) (hnd : NodupIds q) :
    (dequeue_batch k q).2 = q ∧
    (dequeue_batch k q).1 = (dequeueEntries k q).map (fun e => (e.id, e.payload)) ∧
    List.Sorted keyLt (dequeueEntries k q) ∧
    (dequeueEntries k q).length = min k (count q) ∧
    (∀ e ∈ dequeueEntries k q, e ∈ q.rows) ∧
    (∀ e ∈ dequeueEntries k q, ∀ f ∈ q.rows, f ∉ dequeueEntries k q → keyLt e f) := by
  have hsorted : List.Sorted keyLt (sortedRows q) := sortL_sorted_keyLt hnd
  refine ⟨rfl, rfl, ?_, dequeueEntries_length k q, fun e he => mem_dequeueEntries he, ?_⟩
  · exact List.Pairwise.sublist (List.take_sublist k (sortedRows q)) hsorted
  · intro e he f hf hnb
    have hfs : f ∈ sortedRows q := mem_sortL.mpr hf
    have hsplit : dequeueEntries k q ++ (sortedRows q).drop k = sortedRows q :=
      List.take_append_drop k (sortedRows q)
    have hcross := (List.pairwise_append.mp (hsplit ▸ hsorted)).2.2
    rw [← hsplit, List.mem_append] at hfs
    rcases hfs with hfs | hfs
    · exact absurd hfs hnb
    · exact hcross e he f hfs

/-! ### Behaviour of `flush_once` (claims C4, C5, C10) -/

theorem removeIds_removeIds (ids₁ ids₂ : List Nat) (rows : List (QEntry P)) :
    removeIds ids₁ (removeIds ids₂ rows) = removeIds (ids₂ ++ ids₁) rows := by
  unfold removeIds
  rw [List.filter_filter]
  apply List.filter_congr
  intro e _
  by_cases h₁ : e.id ∈ ids₁ <;> by_cases h₂ : e.id ∈ ids₂ <;>
    simp [h₁, h₂, List.mem_append]

theorem removeIds_nil (rows : List (QEntry P)) : removeIds [] rows = rows := by
  unfold removeIds
  rw [List.filter_eq_self]
  intro e _
  simp

/-- The exact behaviour of the `flush_once` loop on the batch built from a
list of entries: there is a cut point `k` such that the first `k` sends
succeeded, the send at `k` (if any) failed, the returned count grows by `k`,
and exactly the ids of the first `k` entries are deleted. -/
theorem flushLoop_spec (send : P → Option Int) (ents : List (QEntry P)) :
    ∀ (fl : Nat) (q : QueueState P),
    ∃ k, k ≤ ents.length ∧
      (∀ e ∈ ents.take k, sendOk (send e.payload) = true) ∧
      (∀ h : k < ents.length, sendOk (send (ents.get ⟨k, h⟩).payload) = false) ∧
      flushLoop send (ents.map (fun e => (e.id, e.payload))) fl q =
        (fl + k, { q with rows := removeIds ((ents.take k).map QEntry.id) q.rows }) := by
  induction ents with
  | nil =>
    intro fl q
    refine ⟨0, Nat.le_refl 0, ?_, ?_, ?_⟩
    · intro e he
      simp at he
    · intro h
      simp at h
    · simp [flushLoop, removeIds_nil]
  | cons e es ih =>
    intro fl q
    cases hs : send e.payload with
    | none =>
      refine ⟨0, Nat.zero_le _, ?_, ?_, ?_⟩
      · intro x hx
        simp at hx
      · intro h
        simp [sendOk, hs]
      · simp [flushLoop, hs, removeIds_nil]
    | some c =>
      by_cases h2 : 200 ≤ c ∧ c < 300
      · obtain ⟨k', hk', hgood, hstop, heq⟩ := ih (fl + 1) (delete [e.id] q).2
        refine ⟨k' + 1, by simpa using Nat.succ_le_succ hk', ?_, ?_, ?_⟩
        · intro x hx
          rw [List.take_succ_cons] at hx
          rcases List.mem_cons.mp hx with rfl | hx
          · simp [sendOk, hs, h2]
          · exact hgood x hx
        · intro h
          have h' : k' < es.length := Nat.lt_of_succ_lt_succ (by simpa using h)
          simpa using hstop h'
        · have hred : flushLoop send
              ((e.id, e.payload) :: es.map (fun x => (x.id, x.payload))) fl q =
              flushLoop send (es.map (fun x => (x.id, x.payload))) (fl + 1)
                (delete [e.id] q).2 := by
            rw [flushLoop, hs]
            exact if_pos h2
          show flushLoop send ((e.id, e.payload) :: es.map (fun x => (x.id, x.payload)))
            fl q = _
          rw [hred, heq]
          have hrows : removeIds ((es.take k').map QEntry.id)
              ((delete [e.id] q).2).rows =
              removeIds (((e :: es).take (k' + 1)).map QEntry.id) q.rows := by
            show removeIds ((es.take k').map QEntry.id) (removeIds [e.id] q.rows) = _
            rw [removeIds_removeIds]
            rw [List.take_succ_cons, List.map_cons]
            rfl
          rw [show (delete [e.id] q).2 =
            { q with rows := removeIds [e.id] q.rows } from rfl] at hrows ⊢
          simp only [hrows]
          refine Prod.ext ?_ rfl
          · show fl + 1 + k' = fl + (k' + 1)
            omega
      · refine ⟨0, Nat.zero_le _, ?_, ?_, ?_⟩
        · intro x hx
          simp at hx
        · intro h
          simp [sendOk, hs, h2]
        · simp [flushLoop, hs, h2, removeIds_nil]

theorem flush_once_spec (maxBatch : Nat) (send : P → Option Int) (q : QueueState P) :
    ∃ k, k ≤ (dequeueEntries maxBatch q).length ∧
      (∀ e ∈ (dequeueEntries maxBatch q).take k, sendOk (send e.payload) = true) ∧
      (∀ h : k < (dequeueEntries maxBatch q).length,
        sendOk (send ((dequeueEntries maxBatch q).get ⟨k, h⟩).payload) = false) ∧
      flush_once maxBatch send q =
        (k, { q with
              rows := removeIds (((dequeueEntries maxBatch q).take k).map QEntry.id)
                q.rows }) := by
  obtain ⟨k, hk, hgood, hstop, heq⟩ := flushLoop_spec send (dequeueEntries maxBatch q) 0 q
  refine ⟨k, hk, hgood, hstop, ?_⟩
  show flushLoop send ((dequeueEntries maxBatch q).map (fun e => (e.id, e.payload))) 0 q = _
  rw [heq]
  rw [Nat.zero_add]

theorem length_removeIds_take {q : QueueState P} (hnd : NodupIds q) (k : Nat) :
    (removeIds (((sortedRows q).take k).map QEntry.id) q.rows).length = count q - k := by
  have hndS : ((sortedRows q).map QEntry.id).Nodup := nodupIds_sortedRows hnd
  have hperm : List.Perm
      (removeIds (((sortedRows q).take k).map QEntry.id) q.rows)
      (removeIds (((sortedRows q).take k).map QEntry.id) (sortedRows q)) := by
    unfold removeIds
    exact List.Perm.filter _ (sortL_perm q.rows).symm
  rw [hperm.length_eq, removeIds_take hndS k, List.length_drop]
  simp [sortedRows, sortL_length, count]

theorem take_dequeueEntries {mb k : Nat} (q : QueueState P) (h : k ≤ mb) :
    (dequeueEntries mb q).take k = (sortedRows q).take k := by
  unfold dequeueEntries
  rw [List.take_take, inf_eq_left.mpr h]

theorem get_mem_take {α : Type} {l : List α} {i n : Nat} (hin : i < n)
    (hil : i < l.length) : l.get ⟨i, hil⟩ ∈ l.take n := by
  have hlt : i < (l.take n).length := by
    rw [List.length_take]
    omega
  have heq : (l.take n).get ⟨i, hlt⟩ = l.get ⟨i, hil⟩ := by
    simp [List.get_eq_getElem, List.getElem_take]
  rw [← heq]
  exact List.get_mem _ _ _

/-- Claim C10 (implicit invariants of `flush_once`): the returned count `n`
satisfies `0 ≤ n ≤ min maxBatch count`, the live count afterwards is the
prior count minus `n`, no entry is inserted or modified (every surviving row
was a row before, and the id counter and cap are untouched), and every
deleted entry's send returned a 2xx status. -/
theorem flush_once_invariants (maxBatch : Nat) (send : P → Option Int)
    (q : QueueState P) (hnd : NodupIds q) :
    (flush_once maxBatch send q).1 ≤ min maxBatch (count q) ∧
    count (flush_once maxBatch send q).2 = count q - (flush_once maxBatch send q).1 ∧
    (flush_once maxBatch send q).2.nextId = q.nextId ∧
    (flush_once maxBatch send q).2.maxRows = q.maxRows ∧
    (∀ e ∈ (flush_once maxBatch send q).2.rows, e ∈ q.rows) ∧
    (∀ e ∈ q.rows, e ∉ (flush_once maxBatch send q).2.rows →
      sendOk (send e.payload) = true) := by
  obtain ⟨k, hk, hgood, hstop, heq⟩ := flush_once_spec maxBatch send q
  have hlen := dequeueEntries_length maxBatch q
  have hkmb : k ≤ maxBatch := by omega
  have htake : (dequeueEntries maxBatch q).take k = (sortedRows q).take k :=
    take_dequeueEntries q hkmb
  have h1 : k ≤ min maxBatch (count q) := by omega
  rw [heq]
  refine ⟨h1, ?_, rfl, rfl, ?_, ?_⟩
  · show (removeIds (((dequeueEntries maxBatch q).take k).map QEntry.id) q.rows).length
      = count q - k
    rw [htake, length_removeIds_take hnd k]
  · intro e he
    unfold removeIds at he
    exact (List.mem_filter.mp he).1
  · intro e he hmem
    by_cases hid : e.id ∈ ((dequeueEntries maxBatch q).take k).map QEntry.id
    · obtain ⟨x, hx, hxe⟩ := List.mem_map.mp hid
      have hxrows : x ∈ q.rows := mem_dequeueEntries (List.mem_of_mem_take hx)
      have hxeq : x = e := List.inj_on_of_nodup_map hnd hxrows he hxe
      exact hxeq ▸ hgood x hx
    · exfalso
      apply hmem
      unfold removeIds
      rw [List.mem_filter]
      exact ⟨he, by simpa using hid⟩

/-- Claim C4: if the send function returns a 2xx status for the first `M`
entries of the peeked batch and fails (exception or non-2xx) on the
`(M+1)`-th, then `flush_once` returns `M`, deletes exactly those `M`
entries, and leaves every other entry — the failed one included — live. -/
theorem flush_once_stops_on_failure (maxBatch : Nat) (send : P → Option Int)
    (q : QueueState P) (M : Nat) (hnd : NodupIds q)
    (hM : M < (dequeueEntries maxBatch q).length)
    (hgood : ∀ e ∈ (dequeueEntries maxBatch q).take M, sendOk (send e.payload) = true)
    (hfail : sendOk (send ((dequeueEntries maxBatch q).get ⟨M, hM⟩).payload) = false) :
    (flush_once maxBatch send q).1 = M ∧
    (flush_once maxBatch send q).2.rows =
      removeIds (((dequeueEntries maxBatch q).take M).map QEntry.id) q.rows ∧
    count (flush_once maxBatch send q).2 = count q - M ∧
    (dequeueEntries maxBatch q).get ⟨M, hM⟩ ∈ (flush_once maxBatch send q).2.rows := by
  obtain ⟨k, hk, hgoodk, hstop, heq⟩ := flush_once_spec maxBatch send q
  have hkM : k = M := by
    rcases Nat.lt_trichotomy k M with h | h | h
    · exfalso
      have hkl : k < (dequeueEntries maxBatch q).length := h.trans hM
      have hmem : (dequeueEntries maxBatch q).get ⟨k, hkl⟩ ∈
          (dequeueEntries maxBatch q).take M := get_mem_take h hkl
      have hcontr := hgood _ hmem
      rw [hstop hkl] at hcontr
      exact Bool.false_ne_true hcontr
    · exact h
    · exfalso
      have hmem : (dequeueEntries maxBatch q).get ⟨M, hM⟩ ∈
          (dequeueEntries maxBatch q).take k := get_mem_take h hM
      have hcontr := hgoodk _ hmem
      rw [hfail] at hcontr
      exact Bool.false_ne_true hcontr
  subst hkM
  have hlen := dequeueEntries_length maxBatch q
  have hkmb : k ≤ maxBatch := by omega
  have hlive : (dequeueEntries maxBatch q).get ⟨k, hM⟩ ∈
      removeIds (((dequeueEntries maxBatch q).take k).map QEntry.id) q.rows := by
    unfold removeIds
    rw [List.mem_filter]
    refine ⟨mem_dequeueEntries (List.get_mem _ _ _), ?_⟩
    simp only [decide_eq_true_eq]
    intro hid
    obtain ⟨x, hx, hxe⟩ := List.mem_map.mp hid
    have hxrows : x ∈ q.rows := mem_dequeueEntries (List.mem_of_mem_take hx)
    have herows : (dequeueEntries maxBatch q).get ⟨k, hM⟩ ∈ q.rows :=
      mem_dequeueEntries (List.get_mem _ _ _)
    have hxeq : x = (dequeueEntries maxBatch q).get ⟨k, hM⟩ :=
      List.inj_on_of_nodup_map hnd hxrows herows hxe
    have hcontr := hgood x hx
    rw [hxeq, hfail] at hcontr
    exact Bool.false_ne_true hcontr
  rw [heq]
  refine ⟨rfl, rfl, ?_, hlive⟩
  show (removeIds (((dequeueEntries maxBatch q).take k).map QEntry.id) q.rows).length
    = count q - k
  rw [take_dequeueEntries q hkmb, length_removeIds_take hnd k]

/-- A `flush_once` whose send function always succeeds and whose batch limit
covers the whole backlog returns the backlog size and empties the queue. -/
theorem flush_once_drains (mb : Nat) (send : P → Option Int) (q : QueueState P)
    (hok : ∀ p, sendOk (send p) = true) (hbig : count q ≤ mb) :
    (flush_once mb send q).1 = count q ∧ count (flush_once mb send q).2 = 0 := by
  obtain ⟨k, hk, hgoodk, hstop, heq⟩ := flush_once_spec mb send q
  have hlen : (dequeueEntries mb q).length = count q := by
    rw [dequeueEntries_length]
    omega
  have hkfull : k = (dequeueEntries mb q).length := by
    by_contra hne
    have hklt : k < (dequeueEntries mb q).length := lt_of_le_of_ne hk hne
    have hcontr := hstop hklt
    rw [hok _] at hcontr
    exact absurd hcontr (by decide)
  have htakeall : (dequeueEntries mb q).take k = dequeueEntries mb q := by
    rw [hkfull]
    exact List.take_length _
  have hde : dequeueEntries mb q = sortedRows q := by
    unfold dequeueEntries
    apply List.take_of_length_le
    show (sortL q.rows).length ≤ mb
    rw [sortL_length]
    exact hbig
  have hempty : removeIds ((sortedRows q).map QEntry.id) q.rows = [] := by
    unfold removeIds
    rw [List.filter_eq_nil_iff]
    intro e he
    simp only [decide_eq_true_eq, not_not]
    exact List.mem_map_of_mem QEntry.id (mem_sortL.mpr he)
  constructor
  · rw [heq]
    show k = count q
    omega
  · rw [heq]
    show (removeIds (((dequeueEntries mb q).take k).map QEntry.id) q.rows).length = 0
    rw [htakeall, hde, hempty]
    rfl

/-- Claim C5: after a `flush_once` call (one that stopped on a failure, in
particular), calling `flush_once` again with a send function that always
returns a 2xx status and a batch limit covering the backlog drains the
remaining backlog to zero, returning the backlog size. -/
theorem flush_once_retry_drains (q : QueueState P) (mb₁ : Nat) (send₁ : P → Option Int)
    (mb₂ : Nat) (send₂ : P → Option Int)
    (hok : ∀ p, sendOk (send₂ p) = true)
    (hbig : count (flush_once mb₁ send₁ q).2 ≤ mb₂) :
    count (flush_once mb₂ send₂ (flush_once mb₁ send₁ q).2).2 = 0 ∧
    (flush_once mb₂ send₂ (flush_once mb₁ send₁ q).2).1 =
      count (flush_once mb₁ send₁ q).2 := by
  have h := flush_once_drains mb₂ send₂ (flush_once mb₁ send₁ q).2 hok hbig
  exact ⟨h.2, h.1⟩

/-! ### Concrete witnesses for the queue theorems -/

/-- A concrete two-row queue used by the witnesses below. -/
def qW : QueueState Int :=
  { nextId := 2, maxRows := 10,
    rows := [⟨0, "dev1", 100, 1⟩, ⟨1, "dev1", 101, 2⟩] }

/-- A send function that accepts payload `1` and rejects everything else. -/
def sendW : Int → Option Int :=
  fun p => if p = 1 then some 200 else some 500

theorem enqueue_dedupe_first_write_wins_witness :
    (keyPresent "dev2" 50 qW.rows = false ∧ count qW < (max 0 qW.maxRows).toNat) ∧
    (enqueue "dev2" 50 7 (enqueue "dev2" 50 3 qW) = enqueue "dev2" 50 3 qW ∧
     count (enqueue "dev2" 50 3 qW) = count qW + 1 ∧
     (enqueue "dev2" 50 3 qW).rows.filter
       (fun e => decide (e.deviceId = "dev2" ∧ e.ts_min = 50)) =
       [⟨qW.nextId, "dev2", 50, 3⟩]) :=
  ⟨⟨by decide, by decide⟩,
   enqueue_dedupe_first_write_wins qW "dev2" 50 3 7 (by decide) (by decide)⟩

theorem dequeue_batch_spec_witness :
    NodupIds qW ∧
    ((dequeue_batch 1 qW).2 = qW ∧
     (dequeue_batch 1 qW).1 = (dequeueEntries 1 qW).map (fun e => (e.id, e.payload)) ∧
     List.Sorted keyLt (dequeueEntries 1 qW) ∧
     (dequeueEntries 1 qW).length = min 1 (count qW) ∧
     (∀ e ∈ dequeueEntries 1 qW, e ∈ qW.rows) ∧
     (∀ e ∈ dequeueEntries 1 qW, ∀ f ∈ qW.rows, f ∉ dequeueEntries 1 qW → keyLt e f)) :=
  ⟨by decide, dequeue_batch_spec 1 qW (by decide)⟩

theorem flush_once_stops_on_failure_witness :
    (NodupIds qW ∧ 1 < (dequeueEntries 10 qW).length ∧
     (∀ e ∈ (dequeueEntries 10 qW).take 1, sendOk (sendW e.payload) = true) ∧
     sendOk (sendW ((dequeueEntries 10 qW).get ⟨1, by decide⟩).payload) = false) ∧
    ((flush_once 10 sendW qW).1 = 1 ∧
     (flush_once 10 sendW qW).2.rows =
       removeIds (((dequeueEntries 10 qW).take 1).map QEntry.id) qW.rows ∧
     count (flush_once 10 sendW qW).2 = count qW - 1 ∧
     (dequeueEntries 10 qW).get ⟨1, by decide⟩ ∈ (flush_once 10 sendW qW).2.rows) :=
  ⟨⟨by decide, by decide, by decide, by decide⟩,
   flush_once_stops_on_failure 10 sendW qW 1 (by decide) (by decide) (by decide)
     (by decide)⟩

theorem flush_once_retry_drains_witness :
    ((∀ p : Int, sendOk ((fun _ => some 200) p) = true) ∧
     count (flush_once 10 sendW qW).2 ≤ 10) ∧
    (count (flush_once 10 (fun _ => some 200) (flush_once 10 sendW qW).2).2 = 0 ∧
     (flush_once 10 (fun _ => some 200) (flush_once 10 sendW qW).2).1 =
       count (flush_once 10 sendW qW).2) :=
  ⟨⟨fun _ => rfl, by decide⟩,
   flush_once_retry_drains qW 10 sendW 10 (fun _ => some 200) (fun _ => rfl)
     (by decide)⟩

theorem flush_once_invariants_witness :
    NodupIds qW ∧
    ((flush_once 10 sendW qW).1 ≤ min 10 (count qW) ∧
     count (flush_once 10 sendW qW).2 = count qW - (flush_once 10 sendW qW).1 ∧
     (flush_once 10 sendW qW).2.nextId = qW.nextId ∧
     (flush_once 10 sendW qW).2.maxRows = qW.maxRows ∧
     (∀ e ∈ (flush_once 10 sendW qW).2.rows, e ∈ qW.rows) ∧
     (∀ e ∈ qW.rows, e ∉ (flush_once 10 sendW qW).2.rows →
       sendOk (sendW e.payload) = true)) :=
  ⟨by decide, flush_once_invariants 10 sendW qW (by decide)⟩

/-! ### Row-cap eviction over a sequence of enqueues (claim C2) -/

/-- The last `n` elements of a list: for a list sorted oldest-first these are
the `n` most-recent entries. -/
def keepLast {α : Type} (n : Nat) (l : List α) : List α :=
  l.drop (l.length - n)

theorem length_keepLast {α : Type} (n : Nat) (l : List α) :
    (keepLast n l).length = min n l.length := by
  unfold keepLast
  rw [List.length_drop]
  omega

theorem keepLast_of_le {α : Type} {n : Nat} {l : List α} (h : l.length ≤ n) :
    keepLast n l = l := by
  unfold keepLast
  rw [Nat.sub_eq_zero_of_le h, List.drop_zero]

theorem keepLast_cons {α : Type} {n : Nat} {a : α} {l : List α} (h : n ≤ l.length) :
    keepLast n (a :: l) = keepLast n l := by
  unfold keepLast
  rw [List.length_cons, show l.length + 1 - n = (l.length - n) + 1 by omega,
    List.drop_succ_cons]

theorem keepLast_keepLast {α : Type} (n : Nat) (l : List α) :
    keepLast n (keepLast n l) = keepLast n l :=
  keepLast_of_le (by rw [length_keepLast]; omega)

theorem orderedInsert_of_forall_le {l : List (QEntry P)} {e : QEntry P}
    (h : ∀ x ∈ l, keyLe e x) : l.orderedInsert keyLe e = e :: l := by
  cases l with
  | nil => rfl
  | cons b t =>
    unfold List.orderedInsert
    rw [if_pos (h b (List.mem_cons_self b t))]

/-- Streaming top-`cap` lemma: inserting a new element into the retained
`cap`-suffix of a sorted list and re-truncating gives the same result as
inserting into the full sorted list and truncating. -/
theorem keepLast_orderedInsert_keepLast (cap : Nat) (e : QEntry P) :
    ∀ S : List (QEntry P), List.Sorted keyLe S →
      keepLast cap ((keepLast cap S).orderedInsert keyLe e) =
        keepLast cap (S.orderedInsert keyLe e) := by
  intro S
  induction S with
  | nil =>
    intro _
    unfold keepLast
    simp
  | cons s S' ih =>
    intro hs
    by_cases hlen : (s :: S').length ≤ cap
    · rw [keepLast_of_le hlen]
    · have hcapS' : cap ≤ S'.length := by
        rw [List.length_cons] at hlen
        omega
      rw [keepLast_cons hcapS']
      by_cases hes : keyLe e s
      · have hforall : ∀ x ∈ keepLast cap S', keyLe e x := by
          intro x hx
          have hxS' : x ∈ S' := List.mem_of_mem_drop hx
          exact Trans.trans hes (List.rel_of_sorted_cons hs x hxS')
        rw [orderedInsert_of_forall_le hforall]
        have hRHS : (s :: S').orderedInsert keyLe e = e :: s :: S' := by
          simp [List.orderedInsert, hes]
        rw [hRHS]
        have hlenKL : cap ≤ (keepLast cap S').length := by
          rw [length_keepLast]
          omega
        rw [keepLast_cons hlenKL, keepLast_keepLast]
        rw [keepLast_cons (by rw [List.length_cons]; omega : cap ≤ (s :: S').length),
          keepLast_cons hcapS']
      · have hRHS : (s :: S').orderedInsert keyLe e = s :: S'.orderedInsert keyLe e := by
          simp [List.orderedInsert, hes]
        rw [hRHS]
        rw [keepLast_cons (by rw [List.orderedInsert_length]; omega :
          cap ≤ (S'.orderedInsert keyLe e).length)]
        exact ih hs.of_cons

/-- Sequentially enqueueing a list of `(deviceId, ts_min, payload)` items into
a fresh queue with row cap `cap` — the scenario of the capacity property. -/
def enqueueAll (cap : Int) (items : List (String × Int × P)) : QueueState P :=
  items.foldl (fun q it => enqueue it.1 it.2.1 it.2.2 q) (emptyQueue cap)

/-- The rows the enqueue sequence would create with ids `n, n+1, …` if nothing
were ever evicted. -/
def idealFrom (n : Nat) : List (String × Int × P) → List (QEntry P)
  | [] => []
  | it :: rest => ⟨n, it.1, it.2.1, it.2.2⟩ :: idealFrom (n + 1) rest

def idealEntries (items : List (String × Int × P)) : List (QEntry P) :=
  idealFrom 0 items

def itemKey (it : String × Int × P) : String × Int :=
  (it.1, it.2.1)

theorem idealFrom_append (n : Nat) (l : List (String × Int × P))
    (x : String × Int × P) :
    idealFrom n (l ++ [x]) =
      idealFrom n l ++ [⟨n + l.length, x.1, x.2.1, x.2.2⟩] := by
  induction l generalizing n with
  | nil => simp [idealFrom]
  | cons it rest ih =>
    show (⟨n, it.1, it.2.1, it.2.2⟩ : QEntry P) :: idealFrom (n + 1) (rest ++ [x]) = _
    rw [ih (n + 1)]
    simp [idealFrom]
    omega

theorem mem_idealFrom_id {n : Nat} {l : List (String × Int × P)} {e : QEntry P}
    (h : e ∈ idealFrom n l) : n ≤ e.id ∧ e.id < n + l.length := by
  induction l generalizing n with
  | nil => simp [idealFrom] at h
  | cons it rest ih =>
    rcases List.mem_cons.mp h with rfl | h'
    · simp
    · have := ih h'
      rw [List.length_cons]
      omega

theorem idealFrom_keys (n : Nat) (l : List (String × Int × P)) :
    (idealFrom n l).map (fun e => (e.deviceId, e.ts_min)) = l.map itemKey := by
  induction l generalizing n with
  | nil => rfl
  | cons it rest ih =>
    show (it.1, it.2.1) :: (idealFrom (n + 1) rest).map _ = _
    rw [ih (n + 1)]
    rfl

theorem length_idealFrom (n : Nat) (l : List (String × Int × P)) :
    (idealFrom n l).length = l.length := by
  induction l generalizing n with
  | nil => rfl
  | cons it rest ih =>
    show (idealFrom (n + 1) rest).length + 1 = _
    rw [ih (n + 1)]
    rfl

theorem nodupIds_idealFrom (n : Nat) (l : List (String × Int × P)) :
    ((idealFrom n l).map QEntry.id).Nodup := by
  induction l generalizing n with
  | nil => exact List.nodup_nil
  | cons it rest ih =>
    show ((n :: (idealFrom (n + 1) rest).map QEntry.id)).Nodup
    rw [List.nodup_cons]
    refine ⟨?_, ih (n + 1)⟩
    intro hmem
    obtain ⟨x, hx, hxe⟩ := List.mem_map.mp hmem
    have := mem_idealFrom_id hx
    omega

theorem prune_nextId (m : Int) (q : QueueState P) :
    (prune_to_row_cap m q).nextId = q.nextId := by
  unfold prune_to_row_cap
  split <;> rfl

theorem prune_maxRows (m : Int) (q : QueueState P) :
    (prune_to_row_cap m q).maxRows = q.maxRows := by
  unfold prune_to_row_cap
  split <;> rfl

/-- What pruning does to the sorted view: it keeps exactly the clamped-cap
most recent (greatest in `(ts_min, id)` order) rows. -/
theorem sortedRows_prune {m : Int} {q : QueueState P} (hnd : NodupIds q) :
    sortedRows (prune_to_row_cap m q) = keepLast (max 0 m).toNat (sortedRows q) := by
  unfold prune_to_row_cap
  split
  · next h => rw [keepLast_of_le (by rw [sortedRows, sortL_length]; exact h)]
  · next h =>
    show sortL (removeIds (((sortedRows q).take (count q - (max 0 m).toNat)).map
      QEntry.id) q.rows) = _
    have hrw : removeIds (((sortedRows q).take (count q - (max 0 m).toNat)).map
        QEntry.id) q.rows =
        q.rows.filter (fun e => decide (e.id ∉
          ((sortedRows q).take (count q - (max 0 m).toNat)).map QEntry.id)) := rfl
    rw [hrw, sortL_filter hnd]
    have hfil : (sortL q.rows).filter (fun e => decide (e.id ∉
        ((sortedRows q).take (count q - (max 0 m).toNat)).map QEntry.id)) =
        removeIds (((sortedRows q).take (count q - (max 0 m).toNat)).map QEntry.id)
          (sortedRows q) := rfl
    rw [hfil, removeIds_take (nodupIds_sortedRows hnd)]
    unfold keepLast
    rw [sortedRows, sortL_length]
    rfl

/-- Invariant of the enqueue sequence: after enqueueing `items` with distinct
keys into a fresh queue with cap `cap`, the id counter equals the number of
items, the cap is unchanged, and the sorted view of the table is exactly the
`cap`-suffix (the `cap` most recent rows in `(ts_min, id)` order) of the
sorted list of all rows the sequence created. -/
theorem enqueueAll_spec (cap : Nat) :
    ∀ items : List (String × Int × P), (items.map itemKey).Nodup →
      (enqueueAll (cap : Int) items).nextId = items.length ∧
      (enqueueAll (cap : Int) items).maxRows = (cap : Int) ∧
      sortedRows (enqueueAll (cap : Int) items) =
        keepLast cap (sortL (idealEntries items)) := by
  intro items
  induction items using List.reverseRecOn with
  | nil =>
    intro _
    refine ⟨rfl, rfl, ?_⟩
    show sortL [] = keepLast cap (sortL (idealFrom 0 []))
    simp [sortL, keepLast, idealFrom]
  | append_singleton l x ih =>
    intro hkeys
    have hkeysl : (l.map itemKey).Nodup := by
      rw [List.map_append] at hkeys
      exact (List.nodup_append.mp hkeys).1
    have hkeyfresh : itemKey x ∉ l.map itemKey := by
      rw [List.map_append] at hkeys
      have hdisj := (List.nodup_append.mp hkeys).2.2
      intro hmem
      exact hdisj hmem (by simp)
    obtain ⟨hnext, hmax, hsort⟩ := ih hkeysl
    set q := enqueueAll (cap : Int) l with hq
    have hrowsideal : ∀ e ∈ q.rows, e ∈ idealEntries l := by
      intro e he
      have h1 : e ∈ sortedRows q := mem_sortL.mpr he
      rw [hsort] at h1
      exact mem_sortL.mp (List.mem_of_mem_drop h1)
    have hndq : NodupIds q := by
      have h1 : ((sortL (idealEntries l)).map QEntry.id).Nodup :=
        nodupIds_of_perm (sortL_perm _).symm (nodupIds_idealFrom 0 l)
      have h2 : ((keepLast cap (sortL (idealEntries l))).map QEntry.id).Nodup :=
        ((List.drop_sublist _ _).map QEntry.id).nodup h1
      rw [← hsort] at h2
      exact nodupIds_of_perm (sortL_perm q.rows) h2
    have hid_lt : ∀ e ∈ q.rows, e.id < l.length := by
      intro e he
      have h := mem_idealFrom_id (hrowsideal e he)
      omega
    have hpres : keyPresent x.1 x.2.1 q.rows = false := by
      by_contra hp
      rw [Bool.not_eq_false] at hp
      obtain ⟨e, he, hdec⟩ := List.any_eq_true.mp hp
      have hdec' : e.deviceId = x.1 ∧ e.ts_min = x.2.1 := of_decide_eq_true hdec
      have hmemk : itemKey x ∈ l.map itemKey := by
        rw [← idealFrom_keys 0 l]
        have : (e.deviceId, e.ts_min) = itemKey x := by
          rw [hdec'.1, hdec'.2]
          rfl
        rw [← this]
        exact List.mem_map_of_mem _ (hrowsideal e he)
      exact hkeyfresh hmemk
    have hstep : enqueueAll (cap : Int) (l ++ [x]) = enqueue x.1 x.2.1 x.2.2 q := by
      rw [hq]
      show (l ++ [x]).foldl (fun q it => enqueue it.1 it.2.1 it.2.2 q)
        (emptyQueue (cap : Int)) = _
      rw [List.foldl_append]
      rfl
    have hins : insertIgnore x.1 x.2.1 x.2.2 q =
        { q with nextId := q.nextId + 1,
                 rows := q.rows ++ [⟨q.nextId, x.1, x.2.1, x.2.2⟩] } := by
      unfold insertIgnore
      rw [hpres]
      simp only [Bool.false_eq_true, if_false]
    have hndq1 : ((q.rows ++ [(⟨q.nextId, x.1, x.2.1, x.2.2⟩ : QEntry P)]).map
        QEntry.id).Nodup := by
      rw [List.map_append, List.nodup_append]
      refine ⟨hndq, List.nodup_singleton _, ?_⟩
      intro a ha hb
      simp at hb
      obtain ⟨y, hy, hya⟩ := List.mem_map.mp ha
      have := hid_lt y hy
      rw [hnext] at hb
      omega
    have hsortq1 : sortL (q.rows ++ [⟨q.nextId, x.1, x.2.1, x.2.2⟩]) =
        (sortL q.rows).orderedInsert keyLe ⟨q.nextId, x.1, x.2.1, x.2.2⟩ :=
      sortL_append_single hndq1
    have hidealapp : idealEntries (l ++ [x]) =
        idealEntries l ++ [⟨l.length, x.1, x.2.1, x.2.2⟩] := by
      rw [idealEntries, idealFrom_append]
      simp [idealEntries]
    have hnd2 : ((idealEntries l ++
        [(⟨l.length, x.1, x.2.1, x.2.2⟩ : QEntry P)]).map QEntry.id).Nodup := by
      rw [← hidealapp]
      exact nodupIds_idealFrom 0 (l ++ [x])
    have hsortideal : sortL (idealEntries (l ++ [x])) =
        (sortL (idealEntries l)).orderedInsert keyLe ⟨l.length, x.1, x.2.1, x.2.2⟩ := by
      rw [hidealapp, sortL_append_single hnd2]
    refine ⟨?_, ?_, ?_⟩
    · rw [hstep]
      show (prune_to_row_cap q.maxRows (insertIgnore x.1 x.2.1 x.2.2 q)).nextId = _
      rw [prune_nextId, hins]
      show q.nextId + 1 = (l ++ [x]).length
      rw [hnext]
      simp
    · rw [hstep]
      show (prune_to_row_cap q.maxRows (insertIgnore x.1 x.2.1 x.2.2 q)).maxRows = _
      rw [prune_maxRows, hins]
      exact hmax
    · rw [hstep]
      show sortedRows (prune_to_row_cap q.maxRows (insertIgnore x.1 x.2.1 x.2.2 q)) = _
      rw [hins]
      have hcapq : (max 0 q.maxRows).toNat = cap := by
        rw [hmax]
        simp
      have hndq1' : NodupIds (⟨q.nextId + 1, q.maxRows,
          q.rows ++ [⟨q.nextId, x.1, x.2.1, x.2.2⟩]⟩ : QueueState P) :=
        hndq1
      rw [sortedRows_prune hndq1', hcapq]
      have hsq1 : sortedRows (⟨q.nextId + 1, q.maxRows,
          q.rows ++ [⟨q.nextId, x.1, x.2.1, x.2.2⟩]⟩ : QueueState P) =
          (sortL q.rows).orderedInsert keyLe ⟨q.nextId, x.1, x.2.1, x.2.2⟩ := hsortq1
      rw [hsq1, hsortideal]
      have hsort' : sortL q.rows = keepLast cap (sortL (idealEntries l)) := hsort
      rw [hsort', hnext]
      exact keepLast_orderedInsert_keepLast cap _ (sortL (idealEntries l))
        (sortL_sorted _)

/-- The literal scenario of the capacity property: ts_min 100..104 for
device "dev1". -/
def items5 : List (String × Int × Unit) :=
  [("dev1", 100, ()), ("dev1", 101, ()), ("dev1", 102, ()),
   ("dev1", 103, ()), ("dev1", 104, ())]

/-- Claim C2: sequentially enqueueing `N > cap` distinct-keyed entries into a
fresh queue with row cap `cap` leaves exactly `cap` live entries, and the
sorted view is the `cap`-suffix — the `cap` most-recent rows in `(ts_min, id)`
order — of the sorted list of all inserted rows (so eviction removed the
oldest by `(ts_min, id)` ascending).  In particular, cap=3 with ts_min
100..104 for "dev1" gives `count = 3` and batch ts_min `[102, 103, 104]`. -/
theorem enqueueAll_cap_most_recent (cap : Nat) (items : List (String × Int × P))
    (hkeys : (items.map itemKey).Nodup) (hN : cap < items.length) :
    count (enqueueAll (cap : Int) items) = cap ∧
    sortedRows (enqueueAll (cap : Int) items) =
      keepLast cap (sortL (idealEntries items)) ∧
    count (enqueueAll ((3 : Nat) : Int) items5) = 3 ∧
    (dequeueEntries 10 (enqueueAll ((3 : Nat) : Int) items5)).map QEntry.ts_min =
      [102, 103, 104] := by
  obtain ⟨hnext, hmax, hsort⟩ := enqueueAll_spec cap items hkeys
  refine ⟨?_, hsort, by decide, by decide⟩
  have hlen : (keepLast cap (sortL (idealEntries items))).length =
      count (enqueueAll (cap : Int) items) := by
    rw [← hsort]
    exact sortL_length _
  rw [← hlen, length_keepLast, sortL_length]
  have hil : (idealEntries items).length = items.length := length_idealFrom 0 items
  omega

theorem enqueueAll_cap_most_recent_witness :
    ((items5.map itemKey).Nodup ∧ 3 < items5.length) ∧
    (count (enqueueAll ((3 : Nat) : Int) items5) = 3 ∧
     sortedRows (enqueueAll ((3 : Nat) : Int) items5) =
       keepLast 3 (sortL (idealEntries items5)) ∧
     count (enqueueAll ((3 : Nat) : Int) items5) = 3 ∧
     (dequeueEntries 10 (enqueueAll ((3 : Nat) : Int) items5)).map QEntry.ts_min =
       [102, 103, 104]) :=
  ⟨⟨by decide, by decide⟩,
   enqueueAll_cap_most_recent 3 items5 (by decide) (by decide)⟩

/-! ### The publish loop (`rpi/src/publisher.py`, claims C6–C9)

Measurement values are modelled as exact rationals: the loop only copies
them from the sample into the payload, it never computes with them. -/

/-- UTC calendar date `(year, month, day)` of a count of days since
1970-01-01 — the civil-from-days algorithm, i.e. the semantics of
`datetime.fromtimestamp(·, tz=UTC).date()`. -/
def civilFromDays (z0 : Int) : Int × Int × Int :=
  let z := z0 + 719468
  let era := (if 0 ≤ z then z else z - 146096) / 146097
  let doe := z - era * 146097
  let yoe := (doe - doe / 1460 + doe / 36524 - doe / 146096) / 365
  let y := yoe + era * 400
  let doy := doe - (365 * yoe + yoe / 4 - yoe / 100)
  let mp := (5 * doy + 2) / 153
  let d := doy - (153 * mp + 2) / 5 + 1
  let m := if mp < 10 then mp + 3 else mp - 9
  (if m ≤ 2 then y + 1 else y, m, d)

/-- Zero-padded two-digit field of `%Y-%m-%d`. -/
def pad2 (n : Int) : String :=
  if n < 10 then "0" ++ toString n else toString n

/-- Zero-padded four-digit year of `%Y-%m-%d`. -/
def pad4 (n : Int) : String :=
  if n < 10 then "000" ++ toString n
  else if n < 100 then "00" ++ toString n
  else if n < 1000 then "0" ++ toString n
  else toString n

/-- `timeutil.day_from_epoch_minutes`:
`datetime.fromtimestamp(ts_min * 60, tz=UTC).strftime("%Y-%m-%d")`. -/
def day_from_epoch_minutes (ts_min : Int) : String :=
  let days := Int.fdiv (ts_min * 60) 86400
  let ymd := civilFromDays days
  pad4 ymd.1 ++ "-" ++ pad2 ymd.2.1 ++ "-" ++ pad2 ymd.2.2

/-- `rpi/src/models.EnvReadingModel` (pydantic): all measurement fields and
the device id are optional with default `None`. -/
structure EnvReadingModel where
  day : String
  ts_min : Int
  temp_c : Option ℚ
  humidity_pct : Option ℚ
  pressure_hpa : Option ℚ
  ambient_lux : Option ℚ
  iaq : Option ℚ
  noise_db : Option ℚ
  deviceId : Option String
deriving Repr, DecidableEq

/-- A JSON-able field value of the serialized payload. -/
inductive Val where
  | s (v : String)
  | i (v : Int)
  | q (v : ℚ)
deriving Repr, DecidableEq

/-- `model.model_dump(exclude_none=True)`: the serialized payload as an
ordered field list in pydantic field order; `None` fields are omitted
entirely (not encoded as null). -/
def model_dump (r : EnvReadingModel) : List (String × Val) :=
  [("day", Val.s r.day), ("ts_min", Val.i r.ts_min)] ++
  (match r.temp_c with | some v => [("temp_c", Val.q v)] | none => []) ++
  (match r.humidity_pct with | some v => [("humidity_pct", Val.q v)] | none => []) ++
  (match r.pressure_hpa with | some v => [("pressure_hpa", Val.q v)] | none => []) ++
  (match r.ambient_lux with | some v => [("ambient_lux", Val.q v)] | none => []) ++
  (match r.iaq with | some v => [("iaq", Val.q v)] | none => []) ++
  (match r.noise_db with | some v => [("noise_db", Val.q v)] | none => []) ++
  (match r.deviceId with | some v => [("deviceId", Val.s v)] | none => [])

/-- The key set of the serialized payload. -/
def payloadKeys (r : EnvReadingModel) : List String :=
  (model_dump r).map Prod.fst

/-- The Reading built by one `run_publisher` tick: `ts_min` is the wall-clock
seconds floor-divided by 60, `day` is derived from `ts_min`, the four wired
measurement fields are copied via `sample.get(...)`, and `iaq` and `noise_db`
are passed as `None` by the source. -/
def buildReading (deviceId : String) (ts_sec : Int)
    (sample : String → Option ℚ) : EnvReadingModel :=
  { day := day_from_epoch_minutes (Int.fdiv ts_sec 60)
    ts_min := Int.fdiv ts_sec 60
    temp_c := sample "temperature_c"
    humidity_pct := sample "humidity_pct"
    pressure_hpa := sample "pressure_hpa"
    ambient_lux := sample "ambient_lux"
    iaq := none
    noise_db := none
    deviceId := some deviceId }

/-- The sample of the literal publish-tick scenario. -/
def sampleC6 : String → Option ℚ := fun k =>
  if k = "temperature_c" then some (45 / 2)
  else if k = "humidity_pct" then some 40
  else if k = "pressure_hpa" then some (10073 / 10)
  else none

/-- Claim C6: a tick observing `temperature_c=22.5, humidity_pct=40.0,
pressure_hpa=1007.3` at wall-clock 1735689600 builds a Reading with
`ts_min = 28928160`, `day = "2025-01-01"`, the three measurement values, and
no `ambient_lux`, `iaq` or `noise_db` key in the serialized payload. -/
theorem publish_tick_scenario :
    (buildReading "dev" 1735689600 sampleC6).ts_min = 28928160 ∧
    (buildReading "dev" 1735689600 sampleC6).day = "2025-01-01" ∧
    (buildReading "dev" 1735689600 sampleC6).temp_c = some (45 / 2) ∧
    (buildReading "dev" 1735689600 sampleC6).humidity_pct = some 40 ∧
    (buildReading "dev" 1735689600 sampleC6).pressure_hpa = some (10073 / 10) ∧
    "ambient_lux" ∉ payloadKeys (buildReading "dev" 1735689600 sampleC6) ∧
    "iaq" ∉ payloadKeys (buildReading "dev" 1735689600 sampleC6) ∧
    "noise_db" ∉ payloadKeys (buildReading "dev" 1735689600 sampleC6) := by
  refine ⟨by decide, by decide, rfl, rfl, rfl, by decide, by decide, by decide⟩

/-- A sample whose only present field is `iaq`. -/
def sampleC7 : String → Option ℚ := fun k =>
  if k = "iaq" then some 50 else none

/-- Claim C7 is false as stated: a sample with a present (non-null) `iaq`
still yields a payload without an `iaq` key, because `run_publisher` passes
`iaq=None` (and `noise_db=None`) to the model regardless of the sample. -/
theorem present_fields_counterexample :
    (sampleC7 "iaq").isSome = true ∧
    "iaq" ∉ payloadKeys (buildReading "dev" 1735689600 sampleC7) := by
  decide

/-- Claim C7, amended: the payload contains exactly the present measurement
fields among `temperature_c → temp_c`, `humidity_pct`, `pressure_hpa` and
`ambient_lux`; `iaq` and `noise_db` are always omitted, whatever the sample
returns for them. -/
theorem present_fields_amended (deviceId : String) (ts_sec : Int)
    (sample : String → Option ℚ) :
    ("temp_c" ∈ payloadKeys (buildReading deviceId ts_sec sample) ↔
      (sample "temperature_c").isSome = true) ∧
    ("humidity_pct" ∈ payloadKeys (buildReading deviceId ts_sec sample) ↔
      (sample "humidity_pct").isSome = true) ∧
    ("pressure_hpa" ∈ payloadKeys (buildReading deviceId ts_sec sample) ↔
      (sample "pressure_hpa").isSome = true) ∧
    ("ambient_lux" ∈ payloadKeys (buildReading deviceId ts_sec sample) ↔
      (sample "ambient_lux").isSome = true) ∧
    "iaq" ∉ payloadKeys (buildReading deviceId ts_sec sample) ∧
    "noise_db" ∉ payloadKeys (buildReading deviceId ts_sec sample) := by
  cases h1 : sample "temperature_c" <;> cases h2 : sample "humidity_pct" <;>
    cases h3 : sample "pressure_hpa" <;> cases h4 : sample "ambient_lux" <;>
      simp [payloadKeys, model_dump, buildReading, h1, h2, h3, h4]

/-! ### The tick, its callbacks and enqueue fallibility (claims C8, C9) -/

/-- Outcome of invoking a status callback: it returns or it raises. -/
inductive CbResult where
  | ok
  | err
deriving Repr, DecidableEq

/-- The four optional status callbacks of `run_publisher`. -/
structure Callbacks where
  on_send_success : Option (Unit → CbResult)
  on_send_failure : Option (Unit → CbResult)
  on_flush_success : Option (Nat → CbResult)
  on_flush_error : Option (Unit → CbResult)

/-- A `try: cb(x) except Exception: logging.debug(...)` callback invocation
site in `run_publisher`: absent callbacks are skipped and both outcomes of a
present callback are swallowed. -/
def guardCb {α : Type} (cb : Option (α → CbResult)) (x : α) : Unit :=
  match cb with
  | none => ()
  | some f =>
    match f x with
    | CbResult.ok => ()
    | CbResult.err => ()

/-- No callbacks configured. -/
def noCallbacks : Callbacks :=
  ⟨none, none, none, none⟩

/-- Claim C9's model of `OfflineQueue.enqueue(payload)` at the dict level:
`str(payload["deviceId"])` raises `KeyError` when the dump omitted the key
(`deviceId=None`), and otherwise the insert proceeds (`ts_min` is always
present: the model field is required). -/
def enqueue_payload (p : EnvReadingModel) (q : QueueState EnvReadingModel) :
    Except Unit (QueueState EnvReadingModel) :=
  match p.deviceId with
  | none => Except.error ()
  | some d => Except.ok (enqueue d p.ts_min p q)

/-- The `try: queue.enqueue(payload) except Exception: logging.error(...)`
site in the loop: an enqueue failure is swallowed, keeping the prior state. -/
def enqueue_payload_caught (p : EnvReadingModel)
    (q : QueueState EnvReadingModel) : QueueState EnvReadingModel :=
  match enqueue_payload p q with
  | Except.ok q' => q'
  | Except.error _ => q

/-- One iteration of the `while True` loop of `run_publisher` (sleeping and
logging elided): build the Reading, flush the backlog best-effort (reporting
via the guarded flush callback), send it, and on a non-2xx status or raised
exception report via the guarded failure callback and enqueue the payload.
Returns the new queue state and whether the direct send succeeded. -/
def run_publisher_tick (cbs : Callbacks) (send : EnvReadingModel → Option Int)
    (readSample : String → Option ℚ) (deviceId : String) (nowSec : Int)
    (spoolFlushBatch : Nat) (q : QueueState EnvReadingModel) :
    QueueState EnvReadingModel × Bool :=
  let payload := buildReading deviceId nowSec readSample
  let flushed := flush_once spoolFlushBatch send q
  let _ := guardCb cbs.on_flush_success flushed.1
  let q1 := flushed.2
  match send payload with
  | some code =>
    if 200 ≤ code ∧ code < 300 then
      let _ := guardCb cbs.on_send_success ()
      (q1, true)
    else
      let _ := guardCb cbs.on_send_failure ()
      (enqueue_payload_caught payload q1, false)
  | none =>
    let _ := guardCb cbs.on_send_failure ()
    (enqueue_payload_caught payload q1, false)

/-- Claim C8: the tick's result — queue state and send outcome — is the same
for every choice of the four callbacks, raising ones included, as with no
callbacks at all: every callback invocation is guarded, so a callback
exception never propagates out of the tick and never affects the loop. -/
theorem callbacks_never_affect_tick (cbs : Callbacks)
    (send : EnvReadingModel → Option Int) (readSample : String → Option ℚ)
    (deviceId : String) (nowSec : Int) (spoolFlushBatch : Nat)
    (q : QueueState EnvReadingModel) :
    run_publisher_tick cbs send readSample deviceId nowSec spoolFlushBatch q =
      run_publisher_tick noCallbacks send readSample deviceId nowSec
        spoolFlushBatch q := rfl

/-- A payload whose serialized form carries no `deviceId` key. -/
def readingNoDevice : EnvReadingModel :=
  ⟨"2025-01-01", 28928160, none, none, none, none, none, none, none⟩

/-- Claim C9 is false for arbitrary payloads: a payload whose dump lacks the
required `deviceId` key makes `enqueue` raise `KeyError` — a failure of the
caller that is not a storage I/O error. -/
theorem enqueue_payload_counterexample :
    enqueue_payload readingNoDevice (emptyQueue 10) = Except.error () := rfl

/-- Claim C9, amended: for every payload carrying the required `deviceId`
key — as every payload the publisher builds does — `enqueue` returns
normally for any such payload (the storage layer is modelled fault-free,
matching the claim's "absent a storage fault"). -/
theorem enqueue_payload_total (p : EnvReadingModel)
    (q : QueueState EnvReadingModel) (h : p.deviceId.isSome = true) :
    ∃ q', enqueue_payload p q = Except.ok q' := by
  cases hd : p.deviceId with
  | none =>
    rw [hd] at h
    simp at h
  | some d => exact ⟨enqueue d p.ts_min p q, by simp [enqueue_payload, hd]⟩

theorem enqueue_payload_total_witness :
    (buildReading "dev" 1735689600 sampleC6).deviceId.isSome = true ∧
    ∃ q', enqueue_payload (buildReading "dev" 1735689600 sampleC6)
      (emptyQueue 10) = Except.ok q' :=
  ⟨by decide, enqueue_payload_total (buildReading "dev" 1735689600 sampleC6)
    (emptyQueue 10) (by decide)⟩

end SleepQ
